import Mathlib

/-!
Verification of `7550a_stream.c`, a manual software-flow-control spooler
for the HP 7550A plotter.

The development shallowly embeds the protocol core of the C program:

* `atoi`, `read_dec`, `read_asc` — the field decoder (`read_dec` /
  `read_asc` in the source, lines 93-141), over the incoming serial bytes
  modelled as a `List Nat`; a read that would block forever because the
  terminator never arrives is modelled as `none`.
* `fieldAccessesAux` — the sequence of indices at which the 64-byte
  accumulation buffer (`dec_buffer` / `asc_buffer`) is written by that
  loop, including the final NUL write.
* `freadChunk`, `pollEvents`, `spoolEvents` — the chunked transfer loop
  of `main` (lines 260-276), with the successive free-space values the
  device reports supplied as an oracle list and the loop's interaction
  recorded as an event trace; the outer `while(!feof(input))` loop is
  given a fuel bound, `none` standing for a run that does not finish
  within it.
* `Chan`, `initChan`, `pollCh` — a channel-level model of the session in
  which every query appends the device's numeric response to a FIFO and
  `read_dec` pops the oldest unread response, used to examine the two
  buffer-size queries issued at lines 245-246 whose responses are never
  read.

Device-reported sizes are modelled as natural numbers (the values the
device encodes in its decimal responses).
-/

/-- Value of the device command terminator byte `DEVCOM_TERM` (carriage
return, `\r`, line 34 of the source). -/
def DEVCOM_TERM : Nat := 13

/-- Size of the local accumulation buffers `READBUFSIZE` (line 31). -/
def READBUFSIZE : Nat := 64

/-- C `isspace` on a byte: space or one of `\t \n \v \f \r`
(codes 9-13). -/
def isSpaceByte (c : Nat) : Bool := c = 32 || (9 ≤ c && c ≤ 13)

/-- C `isdigit` on a byte. -/
def isDigitByte (c : Nat) : Bool := 48 ≤ c && c ≤ 57

/-- Accumulate a leading run of decimal digits, stopping at the first
non-digit, as `atoi` does after sign handling. -/
def parseDigits : List Nat → Nat → Nat
  | [], acc => acc
  | c :: rest, acc =>
    if isDigitByte c then parseDigits rest (acc * 10 + (c - 48)) else acc

/-- C `atoi` on the accumulated field bytes: skip whitespace, then an
optional `+` (byte 43) or `-` (byte 45) sign, then a digit run; a string
with no leading digit run yields 0. -/
def atoi (s : List Nat) : Int :=
  match s.dropWhile isSpaceByte with
  | 43 :: rest => (parseDigits rest 0 : Int)
  | 45 :: rest => -(parseDigits rest 0 : Int)
  | s1 => (parseDigits s1 0 : Int)

/-- Shared read loop of `read_dec` and `read_asc` (the two loops in the
source are byte-for-byte identical): consume incoming bytes, accumulating
them, until the terminator; return the accumulated field and the bytes
left in the stream. An exhausted stream means the blocking `read` never
returns the terminator: the call never finishes (`none`). -/
def readFieldAux : List Nat → List Nat → Option (List Nat × List Nat)
  | _, [] => none
  | acc, b :: rest =>
    if b = DEVCOM_TERM then some (acc.reverse, rest)
    else readFieldAux (b :: acc) rest

/-- Reads a DEC field (source lines 93-114): accumulate until the
terminator, then `atoi` the accumulated bytes. -/
def read_dec (stream : List Nat) : Option (Int × List Nat) :=
  (readFieldAux [] stream).map (fun p => (atoi p.1, p.2))

/-- Reads an ASC field (source lines 120-141): accumulate until the
terminator, return the accumulated bytes. -/
def read_asc (stream : List Nat) : Option (List Nat × List Nat) :=
  readFieldAux [] stream

/-- Indices at which the field-reading loop writes into its 64-byte
accumulation buffer when started at write position `pos`: one write per
non-terminator byte, and a final NUL write at the current position when
the terminator arrives. -/
def fieldAccessesAux : Nat → List Nat → Option (List Nat)
  | _, [] => none
  | pos, b :: rest =>
    if b = DEVCOM_TERM then some [pos]
    else (fieldAccessesAux (pos + 1) rest).map (pos :: ·)

/-- Buffer-write indices of a whole field read (`dbuf_pos` starts at 0). -/
def fieldAccesses (stream : List Nat) : Option (List Nat) :=
  fieldAccessesAux 0 stream

/-- Chunk-size derivation of `main` (line 234): `chunksize = bufsize / 2`
in `size_t` integer division. -/
def chunkSize (bufsize : Nat) : Nat := bufsize / 2

/-- Observable serial-side events of the transfer loop: a free-space poll
that came back with value `v`, a raw data write of `chunk`, and the
final power-off command. -/
inductive Ev where
  | poll (v : Nat)
  | write (chunk : List Nat)
  | powerOff
deriving DecidableEq, Repr

/-- Model of `fread(buffer, 1, chunksize, input)` plus the EOF indicator:
returns the bytes read, the rest of the input, and whether the EOF flag
got set. `fread` with a zero byte count reads nothing and leaves the EOF
flag untouched; with a positive count it sets EOF exactly when the input
holds fewer bytes than requested. -/
def freadChunk (chunksize : Nat) (input : List Nat) : List Nat × List Nat × Bool :=
  (input.take chunksize, input.drop chunksize, decide (input.length < chunksize))

/-- Inner poll loop of `main` (lines 263-270) against the oracle list of
successive free-space readings: starting from `buffree = 0`, poll while
`buffree <= fbufsize`; on release return the poll events emitted, the
releasing value and the unconsumed oracle. `none` means the oracle ran
out with the loop still polling. -/
def pollEvents (n : Nat) : List Nat → Option (List Ev × Nat × List Nat)
  | [] => none
  | v :: rest =>
    if v ≤ n then
      (pollEvents n rest).map (fun r => (Ev.poll v :: r.1, r.2))
    else
      some ([Ev.poll v], v, rest)

/-- Outer transfer loop of `main` (lines 260-276): while the EOF flag is
unset, read a chunk, run the poll loop on its byte count, then write the
chunk (the `write` happens for every iteration, a zero-length chunk
included). Returns the event trace and the unconsumed poll oracle;
`none` when `fuel` iterations or the poll oracle do not suffice. -/
def spoolEvents : Nat → Nat → List Nat → Bool → List Nat → Option (List Ev × List Nat)
  | 0, _, _, _, _ => none
  | fuel + 1, cs, input, eof, polls =>
    if eof then some ([], polls)
    else
      match freadChunk cs input with
      | (chunk, rest, eofHit) =>
        match pollEvents chunk.length polls with
        | none => none
        | some (pevs, _, polls2) =>
          match spoolEvents fuel cs rest (eof || eofHit) polls2 with
          | none => none
          | some (evs, polls3) => some (pevs ++ Ev.write chunk :: evs, polls3)

/-- Chunks written on the serial channel, in order, read off a trace. -/
def writesOf (evs : List Ev) : List (List Nat) :=
  evs.filterMap (fun e => match e with | Ev.write c => some c | _ => none)

/-- Transfer loop followed by the plotter-off command (line 281), which
`main` sends right after the loop exits. -/
def progEvents (fuel cs : Nat) (input polls : List Nat) : Option (List Ev × List Nat) :=
  (spoolEvents fuel cs input false polls).map (fun p => (p.1 ++ [Ev.powerOff], p.2))

/-- Checker for the pacing discipline over a trace: every data write is
immediately preceded by a poll whose reported value covers the chunk's
byte count. The first argument carries the value of the directly
preceding poll, when the previous event was one. -/
def goodFrom : Option Nat → List Ev → Bool
  | _, [] => true
  | _, Ev.poll v :: rest => goodFrom (some v) rest
  | some v, Ev.write c :: rest => decide (c.length ≤ v) && goodFrom none rest
  | none, Ev.write _ :: _ => false
  | _, Ev.powerOff :: rest => goodFrom none rest

/-- A trace in which every write is justified by the poll just before it. -/
def goodTrace (t : List Ev) : Bool := goodFrom none t

/-- Channel-level view of the serial link: `fifo` holds the numeric
responses the device has produced and the host has not read yet (the
device terminates each one, and `read_dec` consumes exactly one), and
`nb` counts the free-space queries issued so far. -/
structure Chan where
  fifo : List Nat
  nb : Nat
deriving DecidableEq, Repr

/-- Sending the buffer-size query `ESC.L` (capacity `cap` is what the
device reports to it): the device appends its response to the channel. -/
def sendL (cap : Nat) (ch : Chan) : Chan :=
  { ch with fifo := ch.fifo ++ [cap] }

/-- Sending the free-space query `ESC.B`: the device appends its current
free-space reading, drawn from the oracle `bfree` indexed by how many
`B` queries were sent before. -/
def sendB (bfree : Nat → Nat) (ch : Chan) : Chan :=
  { fifo := ch.fifo ++ [bfree ch.nb], nb := ch.nb + 1 }

/-- Channel-level `read_dec`: pop the oldest unread response; on an empty
channel the blocking `read` waits forever (`none`). -/
def readDecCh (ch : Chan) : Option (Nat × Chan) :=
  match ch.fifo with
  | [] => none
  | v :: rest => some (v, { ch with fifo := rest })

/-- Channel-level model of the non-verbose initialization sequence of
`main` (lines 229-249): plotter-on and reset produce no response; an
`ESC.L` query is answered and read into `bufsize` (line 232); then two
further `ESC.L` queries are sent (lines 245-246) whose responses are
never read; the begin-data command produces no response. Returns
`bufsize` and the channel state entering the transfer loop. -/
def initChan (cap : Nat) : Option (Nat × Chan) :=
  match readDecCh (sendL cap { fifo := [], nb := 0 }) with
  | none => none
  | some (bufsize, ch1) => some (bufsize, sendL cap (sendL cap ch1))

/-- Channel-level poll loop (lines 263-270): each iteration sends `ESC.B`
and then `read_dec` pops the oldest unread response — whatever query it
answers — comparing it against the chunk's byte count. -/
def pollCh (bfree : Nat → Nat) (n : Nat) : Nat → Chan → Option (Nat × Chan)
  | 0, _ => none
  | fuel + 1, ch =>
    match readDecCh (sendB bfree ch) with
    | none => none
    | some (v, ch2) => if v ≤ n then pollCh bfree n fuel ch2 else some (v, ch2)

/-- Free-space oracle of a device whose receive buffer stays full: every
`ESC.B` query is answered with 0. -/
def bfreeZero : Nat → Nat := fun _ => 0

/-! ## Helper lemmas -/

/-- Unfolding `goodFrom` on an empty trace. -/
theorem goodFrom_nil (a : Option Nat) : goodFrom a [] = true := by
  cases a <;> rfl

/-- Unfolding `goodFrom` on a poll event. -/
theorem goodFrom_poll (a : Option Nat) (v : Nat) (t : List Ev) :
    goodFrom a (Ev.poll v :: t) = goodFrom (some v) t := by
  cases a <;> rfl

/-- Unfolding `goodFrom` on a write event after a poll. -/
theorem goodFrom_write (v : Nat) (c : List Nat) (t : List Ev) :
    goodFrom (some v) (Ev.write c :: t) =
      (decide (c.length ≤ v) && goodFrom none t) := rfl

/-- Unfolding `goodFrom` on the power-off event. -/
theorem goodFrom_off (a : Option Nat) (t : List Ev) :
    goodFrom a (Ev.powerOff :: t) = goodFrom none t := by
  cases a <;> rfl

/-- Unfolding `writesOf` across an append. -/
theorem writesOf_append (a b : List Ev) :
    writesOf (a ++ b) = writesOf a ++ writesOf b := by
  simp [writesOf]

/-- A poll event contributes no write. -/
theorem writesOf_poll (v : Nat) (t : List Ev) :
    writesOf (Ev.poll v :: t) = writesOf t := rfl

/-- A write event contributes its chunk. -/
theorem writesOf_write (c : List Nat) (t : List Ev) :
    writesOf (Ev.write c :: t) = c :: writesOf t := rfl

/-- The poll loop only releases on a value strictly greater than the
chunk's byte count (the loop keeps running while `buffree <= fbufsize`). -/
theorem pollEvents_gt {n : Nat} :
    ∀ {polls : List Nat} {pevs : List Ev} {v : Nat} {rest : List Nat},
      pollEvents n polls = some (pevs, v, rest) → n < v := by
  intro polls
  induction polls with
  | nil => intro pevs v rest h; exact Option.noConfusion h
  | cons u us ih =>
    intro pevs v rest h
    rw [pollEvents] at h
    by_cases hu : u ≤ n
    · rw [if_pos hu] at h
      cases hp : pollEvents n us with
      | none => rw [hp] at h; simp at h
      | some r =>
        obtain ⟨r1, rv, rr⟩ := r
        rw [hp] at h
        simp at h
        obtain ⟨-, h2, h3⟩ := h
        exact ih (h2 ▸ h3 ▸ hp)
    · rw [if_neg hu] at h
      simp at h
      obtain ⟨-, h2, -⟩ := h
      omega

/-- Events emitted by the poll loop are all polls: the loop writes no
data. -/
theorem pollEvents_writesOf {n : Nat} :
    ∀ {polls : List Nat} {pevs : List Ev} {v : Nat} {rest : List Nat},
      pollEvents n polls = some (pevs, v, rest) → writesOf pevs = [] := by
  intro polls
  induction polls with
  | nil => intro pevs v rest h; exact Option.noConfusion h
  | cons u us ih =>
    intro pevs v rest h
    rw [pollEvents] at h
    by_cases hu : u ≤ n
    · rw [if_pos hu] at h
      cases hp : pollEvents n us with
      | none => rw [hp] at h; exact Option.noConfusion h
      | some r =>
        obtain ⟨r1, rv, rr⟩ := r
        rw [hp] at h
        simp at h
        obtain ⟨h1, -, -⟩ := h
        rw [← h1, writesOf_poll]
        exact ih hp
    · rw [if_neg hu] at h
      simp at h
      obtain ⟨h1, -, -⟩ := h
      rw [← h1]
      rfl

/-- Running the pacing checker across the poll loop's events: the checker
ends up remembering exactly the releasing value. -/
theorem pollEvents_goodFrom {n : Nat} :
    ∀ {polls : List Nat} {pevs : List Ev} {v : Nat} {rest : List Nat},
      pollEvents n polls = some (pevs, v, rest) →
      ∀ (a : Option Nat) (t : List Ev), goodFrom a (pevs ++ t) = goodFrom (some v) t := by
  intro polls
  induction polls with
  | nil => intro pevs v rest h; exact Option.noConfusion h
  | cons u us ih =>
    intro pevs v rest h a t
    rw [pollEvents] at h
    by_cases hu : u ≤ n
    · rw [if_pos hu] at h
      cases hp : pollEvents n us with
      | none => rw [hp] at h; exact Option.noConfusion h
      | some r =>
        obtain ⟨r1, rv, rr⟩ := r
        rw [hp] at h
        simp at h
        obtain ⟨h1, h2, h3⟩ := h
        rw [← h1, List.cons_append, goodFrom_poll]
        exact ih (h2 ▸ h3 ▸ hp) (some u) t
    · rw [if_neg hu] at h
      simp at h
      obtain ⟨h1, h2, -⟩ := h
      rw [← h1, ← h2, List.singleton_append, goodFrom_poll]

/-- With the EOF flag already set, the loop exits at once: no events, no
polls consumed. -/
theorem spool_eof {fuel cs : Nat} {input polls : List Nat} {evs : List Ev}
    {ps : List Nat}
    (h : spoolEvents fuel cs input true polls = some (evs, ps)) :
    evs = [] ∧ ps = polls := by
  cases fuel with
  | zero => exact Option.noConfusion h
  | succ f =>
    rw [spoolEvents] at h
    simp at h
    exact ⟨h.1, h.2.symm⟩

/-- With chunk size 0 the loop can never finish: `fread` with a zero byte
count reads nothing and never raises EOF, so the `while(!feof(input))`
loop runs forever (for every fuel bound the run is unfinished). -/
theorem spool_zero : ∀ (fuel : Nat) (input polls : List Nat),
    spoolEvents fuel 0 input false polls = none := by
  intro fuel
  induction fuel with
  | zero => intro input polls; rfl
  | succ f ih =>
    intro input polls
    cases hp : pollEvents 0 polls with
    | none => simp [spoolEvents, freadChunk, hp]
    | some r =>
      obtain ⟨pevs, v, polls2⟩ := r
      simp [spoolEvents, freadChunk, hp, ih]

/-- Main invariant of the transfer loop: on any finished run the chunks
written concatenate back to the whole input, every chunk is at most the
chunk size, every chunk but the last is exactly the chunk size, and a run
entered with EOF unset writes at least one chunk. The side condition ties
the EOF flag to the input being used up, as the loop maintains it. -/
theorem spool_writes {cs : Nat} :
    ∀ (fuel : Nat) (input polls : List Nat) (eof : Bool) (evs : List Ev)
      (ps : List Nat),
      (eof = true → input = []) →
      spoolEvents fuel cs input eof polls = some (evs, ps) →
      (writesOf evs).flatten = input ∧
      (∀ c ∈ writesOf evs, c.length ≤ cs) ∧
      (∀ c ∈ (writesOf evs).dropLast, c.length = cs) ∧
      (eof = false → writesOf evs ≠ []) := by
  intro fuel
  induction fuel with
  | zero => intro input polls eof evs ps _ h; exact Option.noConfusion h
  | succ f ih =>
    intro input polls eof evs ps heof h
    cases eof with
    | true =>
      obtain ⟨h1, -⟩ := spool_eof h
      subst h1
      simp [writesOf, heof rfl]
    | false =>
      rw [spoolEvents] at h
      simp only [Bool.false_eq_true, if_false, freadChunk, Bool.false_or] at h
      cases hp : pollEvents (List.take cs input).length polls with
      | none => rw [hp] at h; exact Option.noConfusion h
      | some r =>
        obtain ⟨pevs, v, polls2⟩ := r
        rw [hp] at h
        dsimp only at h
        cases hs : spoolEvents f cs (List.drop cs input)
            (decide (input.length < cs)) polls2 with
        | none => rw [hs] at h; exact Option.noConfusion h
        | some q =>
          obtain ⟨evs2, polls3⟩ := q
          rw [hs] at h
          simp at h
          obtain ⟨h1, -⟩ := h
          subst h1
          have hpre : decide (input.length < cs) = true →
              List.drop cs input = [] := by
            intro hd
            exact List.drop_eq_nil_of_le (Nat.le_of_lt (of_decide_eq_true hd))
          obtain ⟨hjoin, hbound, hlast, hne⟩ :=
            ih (List.drop cs input) polls2 (decide (input.length < cs))
              evs2 polls3 hpre hs
          have hw : writesOf (pevs ++ Ev.write (List.take cs input) :: evs2)
              = List.take cs input :: writesOf evs2 := by
            rw [writesOf_append, pollEvents_writesOf hp, writesOf_write,
              List.nil_append]
          rw [hw]
          refine ⟨?_, ?_, ?_, ?_⟩
          · simp only [List.flatten_cons]
            rw [hjoin, List.take_append_drop]
          · intro c hc
            rcases List.mem_cons.mp hc with h1 | h2
            · rw [h1]; exact List.length_take_le cs input
            · exact hbound c h2
          · by_cases hhit : input.length < cs
            · have hs2 : evs2 = [] := by
                rw [decide_eq_true hhit] at hs
                exact (spool_eof hs).1
              subst hs2
              simp [writesOf]
            · have hlen : (List.take cs input).length = cs := by
                rw [List.length_take]
                exact Nat.min_eq_left (Nat.le_of_not_lt hhit)
              have hne2 : writesOf evs2 ≠ [] := by
                apply hne
                simp [hhit]
              obtain ⟨w, ws, hws⟩ := List.exists_cons_of_ne_nil hne2
              rw [hws, List.dropLast_cons₂]
              intro c hc
              rcases List.mem_cons.mp hc with h1 | h2
              · rw [h1]; exact hlen
              · rw [← hws] at h2
                exact hlast c h2
          · intro _
            simp

/-- Every finished run of the transfer loop passes the pacing check:
each write is immediately preceded by a poll whose value covers it. -/
theorem spool_good {cs : Nat} :
    ∀ (fuel : Nat) (input polls : List Nat) (eof : Bool) (evs : List Ev)
      (ps : List Nat),
      spoolEvents fuel cs input eof polls = some (evs, ps) →
      goodFrom none evs = true := by
  intro fuel
  induction fuel with
  | zero => intro input polls eof evs ps h; exact Option.noConfusion h
  | succ f ih =>
    intro input polls eof evs ps h
    cases eof with
    | true =>
      obtain ⟨h1, -⟩ := spool_eof h
      subst h1
      rfl
    | false =>
      rw [spoolEvents] at h
      simp only [Bool.false_eq_true, if_false, freadChunk, Bool.false_or] at h
      cases hp : pollEvents (List.take cs input).length polls with
      | none => rw [hp] at h; exact Option.noConfusion h
      | some r =>
        obtain ⟨pevs, v, polls2⟩ := r
        rw [hp] at h
        dsimp only at h
        cases hs : spoolEvents f cs (List.drop cs input)
            (decide (input.length < cs)) polls2 with
        | none => rw [hs] at h; exact Option.noConfusion h
        | some q =>
          obtain ⟨evs2, polls3⟩ := q
          rw [hs] at h
          simp at h
          obtain ⟨h1, -⟩ := h
          subst h1
          rw [pollEvents_goodFrom hp none (Ev.write (List.take cs input) :: evs2),
            goodFrom_write, Bool.and_eq_true]
          exact ⟨decide_eq_true (Nat.le_of_lt (pollEvents_gt hp)),
            ih (List.drop cs input) polls2 _ evs2 polls3 hs⟩


/-- The field-reading loop terminates as soon as the terminator occurs
somewhere in the incoming bytes. -/
theorem readFieldAux_isSome :
    ∀ (bytes : List Nat), DEVCOM_TERM ∈ bytes → ∀ (acc : List Nat),
      (readFieldAux acc bytes).isSome = true := by
  intro bytes
  induction bytes with
  | nil => intro h; simp at h
  | cons b rest ih =>
    intro h acc
    rw [readFieldAux]
    by_cases hb : b = DEVCOM_TERM
    · rw [if_pos hb]; rfl
    · rw [if_neg hb]
      apply ih
      rcases List.mem_cons.mp h with h1 | h2
      · exact absurd h1.symm hb
      · exact h2

/-- With the terminator among the first `k` incoming bytes, the
accumulation-buffer writes of a field read started at position `pos` all
land strictly below `pos + k`. -/
theorem fieldAccessesAux_bound :
    ∀ (bytes : List Nat) (k pos : Nat), DEVCOM_TERM ∈ bytes.take k →
      ∃ l, fieldAccessesAux pos bytes = some l ∧ ∀ i ∈ l, i < pos + k := by
  intro bytes
  induction bytes with
  | nil => intro k pos h; simp at h
  | cons b rest ih =>
    intro k pos h
    cases k with
    | zero => simp at h
    | succ k2 =>
      rw [List.take_succ_cons] at h
      rw [fieldAccessesAux]
      by_cases hb : b = DEVCOM_TERM
      · rw [if_pos hb]
        refine ⟨[pos], rfl, ?_⟩
        intro i hi
        simp at hi
        omega
      · rw [if_neg hb]
        have hmem : DEVCOM_TERM ∈ rest.take k2 := by
          rcases List.mem_cons.mp h with h1 | h2
          · exact absurd h1.symm hb
          · exact h2
        obtain ⟨l2, hl2, hb2⟩ := ih k2 (pos + 1) hmem
        refine ⟨pos :: l2, by rw [hl2]; rfl, ?_⟩
        intro i hi
        rcases List.mem_cons.mp hi with h1 | h2
        · omega
        · have := hb2 i h2; omega

/-! ## Claims -/

/-- C1: for every input, a finished data phase writes exactly the input:
the chunks written concatenate back to the whole input (hence the total
byte count equals the input length), each chunk is at most the chunk
size, and every chunk but possibly the last is exactly the chunk size.
The hypothesis that the run finished (`some`) encodes the claim's
assumption that every free-space poll eventually returns a sufficient
value. -/
theorem C1_data_phase_writes_input (fuel cs : Nat) (input polls : List Nat)
    (evs : List Ev) (ps : List Nat)
    (h : spoolEvents fuel cs input false polls = some (evs, ps)) :
    (writesOf evs).flatten = input ∧
    ((writesOf evs).map List.length).sum = input.length ∧
    (∀ c ∈ writesOf evs, c.length ≤ cs) ∧
    ∀ c ∈ (writesOf evs).dropLast, c.length = cs := by
  obtain ⟨h1, h2, h3, -⟩ :=
    spool_writes fuel input polls false evs ps (by simp) h
  refine ⟨h1, ?_, h2, h3⟩
  rw [← h1, List.length_flatten]

/-- C1 witness: a concrete finished run on a 3-byte input with chunk
size 2 writes the chunks `[1, 2]` and `[3]`. -/
theorem C1_data_phase_writes_input_witness :
    (writesOf [Ev.poll 5, Ev.write [1, 2], Ev.poll 5, Ev.write [3]]).flatten
      = [1, 2, 3] ∧
    ((writesOf [Ev.poll 5, Ev.write [1, 2], Ev.poll 5, Ev.write [3]]).map
      List.length).sum = ([1, 2, 3] : List Nat).length ∧
    ([1, 2] : List Nat).length ≤ 2 := by
  have h := C1_data_phase_writes_input 3 2 [1, 2, 3] [5, 5]
    [Ev.poll 5, Ev.write [1, 2], Ev.poll 5, Ev.write [3]] [] (by decide)
  exact ⟨h.1, h.2.1, h.2.2.1 [1, 2] (by decide)⟩

/-- C2: every finished run's trace passes the pacing check — each chunk
write is immediately preceded by a free-space poll whose returned value
is at least the chunk's byte count — and on the claimed scenario (polls
`10, 10, 60` for a 50-byte chunk) the loop waits through the first two
polls and releases only on the third. -/
theorem C2_write_follows_sufficient_poll (fuel cs : Nat)
    (input polls : List Nat) (evs : List Ev) (ps : List Nat)
    (h : spoolEvents fuel cs input false polls = some (evs, ps)) :
    goodTrace evs = true ∧
    pollEvents 50 [10, 10, 60] =
      some ([Ev.poll 10, Ev.poll 10, Ev.poll 60], 60, []) :=
  ⟨spool_good fuel input polls false evs ps h, by decide⟩

/-- C2 witness: a concrete finished run whose trace passes the check. -/
theorem C2_write_follows_sufficient_poll_witness :
    goodTrace [Ev.poll 9, Ev.write [7]] = true ∧
    pollEvents 50 [10, 10, 60] =
      some ([Ev.poll 10, Ev.poll 10, Ev.poll 60], 60, []) :=
  C2_write_follows_sufficient_poll 2 2 [7] [9]
    [Ev.poll 9, Ev.write [7]] [] (by decide)

/-- C3 counterexample: the loop condition is `buffree <= fbufsize`, so a
poll returning exactly the chunk size does NOT release the chunk — with
only a poll of exactly 50 available for a 50-byte chunk the loop keeps
polling (the run never releases), and with polls `50, 60` both polls are
consumed and the release value is 60, not 50. -/
theorem C3_poll_equal_does_not_release :
    pollEvents 50 [50] = none ∧
    pollEvents 50 [50, 60] = some ([Ev.poll 50, Ev.poll 60], 60, []) := by
  decide

/-- C3 amended: the poll loop keeps polling while the polled value is at
most `n` and releases exactly at the first polled value strictly greater
than `n` (free space ≥ n + 1). -/
theorem C3_release_on_strictly_greater (n v : Nat) (pre post : List Nat)
    (hpre : ∀ u ∈ pre, u ≤ n) (hv : n < v) :
    pollEvents n (pre ++ v :: post) =
      some (pre.map Ev.poll ++ [Ev.poll v], v, post) := by
  induction pre with
  | nil =>
    rw [List.nil_append, pollEvents, if_neg (Nat.not_le.mpr hv)]
    rfl
  | cons u us ih =>
    have hu : u ≤ n := hpre u (List.mem_cons_self u us)
    rw [List.cons_append, pollEvents, if_pos hu,
      ih (fun x hx => hpre x (List.mem_cons_of_mem u hx))]
    rfl

/-- C3 amended witness: polls `10, 10` are below a 50-byte chunk, poll
`60` strictly exceeds it and releases. -/
theorem C3_release_on_strictly_greater_witness :
    pollEvents 50 ([10, 10] ++ 60 :: []) =
      some ([10, 10].map Ev.poll ++ [Ev.poll 60], 60, []) :=
  C3_release_on_strictly_greater 50 60 [10, 10] [] (by decide) (by decide)

/-- C4: for a reported capacity `C > 1` the session chunk size is
`⌊C / 2⌋` (capacity 100 gives 50), and no chunk written in the data
phase exceeds it. -/
theorem C4_chunk_size_and_write_bound (C cs fuel : Nat)
    (input polls : List Nat) (evs : List Ev) (ps : List Nat)
    (_hC : 1 < C) (hcs : cs = chunkSize C)
    (h : spoolEvents fuel cs input false polls = some (evs, ps)) :
    cs = C / 2 ∧ chunkSize 100 = 50 ∧ ∀ c ∈ writesOf evs, c.length ≤ cs := by
  refine ⟨hcs, by decide, ?_⟩
  exact (spool_writes fuel input polls false evs ps (by simp) h).2.1

/-- C4 witness: capacity 100, chunk size 50, and a concrete run whose
single 3-byte write is within the bound. -/
theorem C4_chunk_size_and_write_bound_witness :
    (50 : Nat) = 100 / 2 ∧ chunkSize 100 = 50 ∧
    ([1, 2, 3] : List Nat).length ≤ 50 := by
  have h := C4_chunk_size_and_write_bound 100 50 2 [1, 2, 3] [60]
    [Ev.poll 60, Ev.write [1, 2, 3]] [] (by decide) (by decide) (by decide)
  exact ⟨h.1, h.2.1, h.2.2 [1, 2, 3] (by decide)⟩

/-- C5 (code behavior at the failing input): a numeric response whose
bytes before the terminator are the non-digits `A`, `B` is parsed by
`read_dec` as the value 0 — `atoi` semantics — and no error of any kind
is surfaced; the caller continues as if free space were 0. -/
theorem C5_malformed_numeric_yields_zero :
    read_dec [65, 66, DEVCOM_TERM] = some (0, []) := by decide

/-- C6 (code behavior at the failing input): a capacity of 1 yields
chunk size 0, and the transfer loop with chunk size 0 never finishes for
any input and any poll oracle — `fread` with byte count 0 reads nothing
and never sets EOF — instead of the session being rejected. -/
theorem C6_capacity_one_loops_forever :
    chunkSize 1 = 0 ∧
    ∀ (fuel : Nat) (input polls : List Nat),
      spoolEvents fuel (chunkSize 1) input false polls = none := by
  constructor
  · rfl
  · intro fuel input polls
    have h0 : chunkSize 1 = 0 := rfl
    rw [h0]
    exact spool_zero fuel input polls

/-- C7 counterexample: after the initialization sequence the channel
holds the two unread responses to the line-245/246 buffer queries (both
100 for capacity 100). With a device whose every free-space response is
0 (`bfreeZero`) and a 50-byte chunk, the first poll iteration sends a
query and then releases on the value 100 — a stale pre-session response
— while the response to the query it just sent (0, which is below 50)
is still sitting unread in the channel. -/
theorem C7_stale_response_released :
    initChan 100 = some (100, { fifo := [100, 100], nb := 0 }) ∧
    pollCh bfreeZero 50 1 { fifo := [100, 100], nb := 0 } =
      some (100, { fifo := [100, bfreeZero 0], nb := 1 }) ∧
    bfreeZero 0 = 0 ∧ ¬ (50 ≤ bfreeZero 0) := by decide

/-- C7 amended: the value each data-phase read acts on is the oldest
unread response in the channel; because two buffer queries are issued
before the data phase without reading their responses, the first poll of
the data phase releases on the pre-session capacity response whenever
`n < cap`, independent of what the device currently reports, and the
response to the just-sent query stays queued. -/
theorem C7_first_poll_returns_presession_response (bfree : Nat → Nat)
    (cap n fuel bs : Nat) (ch : Chan)
    (hn : n < cap) (hinit : initChan cap = some (bs, ch)) :
    pollCh bfree n (fuel + 1) ch =
      some (cap, { fifo := [cap, bfree 0], nb := 1 }) := by
  have hch : ch = { fifo := [cap, cap], nb := 0 } := by
    simp [initChan, sendL, readDecCh] at hinit
    exact hinit.2.symm
  subst hch
  rw [pollCh]
  simp [sendB, readDecCh, Nat.not_le.mpr hn]

/-- C7 amended witness: with capacity 100, a 50-byte chunk and an
all-zero device, the first poll releases on the stale 100. -/
theorem C7_first_poll_returns_presession_response_witness :
    pollCh bfreeZero 50 (0 + 1) { fifo := [100, 100], nb := 0 } =
      some (100, { fifo := [100, bfreeZero 0], nb := 1 }) :=
  C7_first_poll_returns_presession_response bfreeZero 100 50 0 100
    { fifo := [100, 100], nb := 0 } (by decide) (by decide)

/-- C8 counterexample: on an empty input the loop body still runs once —
`feof` is only set by the first (empty) `fread` — so the trace contains
one poll and one write event (of the empty chunk): the write list is not
empty, and the read of 0 bytes did not end the loop before the send. -/
theorem C8_empty_input_one_zero_write :
    spoolEvents 2 50 [] false [100] =
      some ([Ev.poll 100, Ev.write []], []) ∧
    writesOf [Ev.poll 100, Ev.write []] ≠ [] := by decide

/-- C8 amended: for an empty input the program performs one more
free-space poll and a single zero-length write — no data bytes are sent
— and the power-off command is still sent afterwards. -/
theorem C8_empty_input_writes_no_bytes (cs v fuel : Nat) (polls : List Nat)
    (hcs : 0 < cs) (hv : 1 ≤ v) (hf : 2 ≤ fuel) :
    progEvents fuel cs [] (v :: polls) =
      some ([Ev.poll v, Ev.write [], Ev.powerOff], polls) ∧
    (writesOf [Ev.poll v, Ev.write []]).flatten = [] := by
  obtain ⟨f, rfl⟩ : ∃ f, fuel = f + 2 := ⟨fuel - 2, by omega⟩
  refine ⟨?_, by simp [writesOf]⟩
  have hnv : ¬ v ≤ 0 := by omega
  simp [progEvents, spoolEvents, freadChunk, pollEvents, hnv, hcs]

/-- C8 amended witness: concrete empty-input run with chunk size 1. -/
theorem C8_empty_input_writes_no_bytes_witness :
    progEvents 2 1 [] [1] =
      some ([Ev.poll 1, Ev.write [], Ev.powerOff], []) ∧
    (writesOf [Ev.poll 1, Ev.write []]).flatten = [] :=
  C8_empty_input_writes_no_bytes 1 1 2 [] (by decide) (by decide) (by decide)

/-- C9: decoder round-trip — the ASCII decimal digits of 0, 1 and 9999
followed by the terminator decode to exactly those values. -/
theorem C9_decoder_round_trip :
    read_dec [48, DEVCOM_TERM] = some (0, []) ∧
    read_dec [49, DEVCOM_TERM] = some (1, []) ∧
    read_dec [57, 57, 57, 57, DEVCOM_TERM] = some (9999, []) := by decide

/-- C10: whenever the terminator occurs within the first 63 incoming
bytes, both field readers terminate and every write into the 64-byte
accumulation buffer (the final NUL included) lands at an index strictly
below 64. -/
theorem C10_accesses_within_buffer (bytes : List Nat)
    (h : DEVCOM_TERM ∈ bytes.take 63) :
    (read_dec bytes).isSome = true ∧ (read_asc bytes).isSome = true ∧
    ∀ l, fieldAccesses bytes = some l → ∀ i ∈ l, i < READBUFSIZE := by
  have hmem : DEVCOM_TERM ∈ bytes := List.take_subset 63 bytes h
  have hsome := readFieldAux_isSome bytes hmem []
  refine ⟨by simp [read_dec, hsome], hsome, ?_⟩
  intro l hl i hi
  obtain ⟨l2, hl2, hb2⟩ := fieldAccessesAux_bound bytes 63 0 h
  rw [fieldAccesses, hl2] at hl
  injection hl with hl
  subst hl
  have hb := hb2 i hi
  have h64 : READBUFSIZE = 64 := rfl
  omega

/-- C10 witness: the two-byte response `A` then terminator touches only
indices 0 and 1. -/
theorem C10_accesses_within_buffer_witness :
    (read_dec [65, DEVCOM_TERM]).isSome = true ∧
    (read_asc [65, DEVCOM_TERM]).isSome = true ∧
    (1 : Nat) < READBUFSIZE := by
  have h := C10_accesses_within_buffer [65, DEVCOM_TERM] (by decide)
  exact ⟨h.1, h.2.1, h.2.2 [0, 1] (by decide) 1 (by decide)⟩
